import Mathlib

/-!
# Testfolio frontend — shallow embedding and verification

This file embeds the client-side logic of the Testfolio single-page app
(`frontend/src/App.jsx`) in Lean 4 and proves properties of it.

Modelling conventions:
* JavaScript numbers that may be `NaN` (e.g. the result of `Number(x)` on a
  non-numeric value) are modelled as `Option ℚ`, with `none` standing for
  `NaN` and `some q` for the finite numeric value `q`.  Arithmetic on values
  that are known to be finite is carried out in `ℚ` (exact rationals standing
  in for IEEE doubles).
* JavaScript arrays are `List`s, JS objects used as string-keyed dictionaries
  are association lists in insertion order (property update keeps the
  original position, property creation appends at the end — the iteration
  order guaranteed for non-index string keys).
* `String.trim` / `String.toUpper` stand for the JS `trim()` /
  `toUpperCase()` (they agree on the ASCII ticker data handled here).
-/

/-- Models `Math.max(0, Number(x) || 0)` from `normalizeWeights`:
a non-numeric entry (`none`, i.e. `NaN`) coerces to `0` (since `NaN` is
falsy, `Number(x) || 0` yields `0`), and numeric entries are clamped to be
non-negative. -/
def coerceWeight (x : Option ℚ) : ℚ := max 0 (x.getD 0)

/-- Embeds `normalizeWeights(weights, n)` from `frontend/src/App.jsx`
(lines 64–72): truncate/clamp the raw weights to the first `n` entries,
pad with zeros up to length `n`, then divide by the total; if the total is
not positive, fall back to the uniform vector `1/n`.  `if (!n) return []`
is the `n = 0` guard. -/
def normalizeWeights (weights : List (Option ℚ)) (n : ℕ) : List ℚ :=
  if n = 0 then []
  else
    let w0 := (weights.take n).map coerceWeight
    let w := (w0 ++ List.replicate (n - w0.length) 0).take n
    let s := w.sum
    if s ≤ 0 then List.replicate n ((1 : ℚ) / n)
    else w.map (fun x => x / s)

lemma sum_map_div (l : List ℚ) (s : ℚ) : (l.map (fun x => x / s)).sum = l.sum / s := by
  induction l with
  | nil => simp
  | cons a t ih => simp [ih, add_div]

/-- The padded, clamped working list inside `normalizeWeights`. -/
def clampedPadded (weights : List (Option ℚ)) (n : ℕ) : List ℚ :=
  let w0 := (weights.take n).map coerceWeight
  w0 ++ List.replicate (n - w0.length) 0

lemma clampedPadded_length (weights : List (Option ℚ)) (n : ℕ) :
    (clampedPadded weights n).length = n := by
  have h0 : ((weights.take n).map coerceWeight).length ≤ n := by
    simp [List.length_take]
  simp only [clampedPadded, List.length_append, List.length_replicate]
  omega

lemma clampedPadded_nonneg (weights : List (Option ℚ)) (n : ℕ) :
    ∀ x ∈ clampedPadded weights n, 0 ≤ x := by
  intro x hx
  rcases List.mem_append.mp hx with h | h
  · rcases List.mem_map.mp h with ⟨y, _, rfl⟩
    exact le_max_left 0 _
  · rw [List.eq_of_mem_replicate h]

lemma normalizeWeights_eq (weights : List (Option ℚ)) (n : ℕ) (hn : n ≠ 0) :
    normalizeWeights weights n =
      if (clampedPadded weights n).sum ≤ 0 then List.replicate n ((1 : ℚ) / n)
      else (clampedPadded weights n).map (fun x => x / (clampedPadded weights n).sum) := by
  have htake : (clampedPadded weights n).take n = clampedPadded weights n :=
    List.take_of_length_le (le_of_eq (clampedPadded_length weights n))
  simp only [normalizeWeights, clampedPadded, if_neg hn] at htake ⊢
  rw [htake]

/-- Core specification of `normalizeWeights` for `n ≥ 1`: the output has
length `n`, all entries are non-negative, and the entries sum to exactly 1
in exact rational arithmetic. -/
lemma normalizeWeights_spec (weights : List (Option ℚ)) (n : ℕ) (hn : 1 ≤ n) :
    (normalizeWeights weights n).length = n ∧
      (∀ x ∈ normalizeWeights weights n, 0 ≤ x) ∧
      (normalizeWeights weights n).sum = 1 := by
  have hn0 : n ≠ 0 := by omega
  have hncast : (n : ℚ) ≠ 0 := Nat.cast_ne_zero.mpr hn0
  rw [normalizeWeights_eq weights n hn0]
  by_cases hs : (clampedPadded weights n).sum ≤ 0
  · rw [if_pos hs]
    refine ⟨List.length_replicate _ _, ?_, ?_⟩
    · intro x hx
      rw [List.eq_of_mem_replicate hx]
      positivity
    · rw [List.sum_replicate, nsmul_eq_mul]
      field_simp
  · rw [if_neg hs]
    push_neg at hs
    refine ⟨?_, ?_, ?_⟩
    · rw [List.length_map, clampedPadded_length]
    · intro x hx
      rcases List.mem_map.mp hx with ⟨y, hy, rfl⟩
      exact div_nonneg (clampedPadded_nonneg weights n y hy) (le_of_lt hs)
    · rw [sum_map_div, div_self (ne_of_gt hs)]

/-- C1: for every weights list and every `n ≥ 1`, `normalizeWeights`
returns exactly `n` numbers, each non-negative, summing to 1 within a
tolerance of `1e-6` (in the exact-rational model the sum is exactly 1). -/
theorem normalizeWeights_sums_to_one (weights : List (Option ℚ)) (n : ℕ) (hn : 1 ≤ n) :
    (normalizeWeights weights n).length = n ∧
      (∀ x ∈ normalizeWeights weights n, 0 ≤ x) ∧
      |(normalizeWeights weights n).sum - 1| ≤ 1 / 1000000 := by
  obtain ⟨hlen, hpos, hsum⟩ := normalizeWeights_spec weights n hn
  exact ⟨hlen, hpos, by rw [hsum]; norm_num⟩

theorem normalizeWeights_sums_to_one_witness :
    1 ≤ 2 ∧
      ((normalizeWeights [some 2, none, some 3] 2).length = 2 ∧
        (∀ x ∈ normalizeWeights [some 2, none, some 3] 2, 0 ≤ x) ∧
        |(normalizeWeights [some 2, none, some 3] 2).sum - 1| ≤ 1 / 1000000) :=
  ⟨by decide, normalizeWeights_sums_to_one [some 2, none, some 3] 2 (by decide)⟩

/-- C8: when every raw entry clamps to zero or below in total (all-zero,
all-negative or all-non-numeric lists), `normalizeWeights` falls back to
the uniform vector `1/n`. -/
theorem normalizeWeights_uniform_fallback (weights : List (Option ℚ)) (n : ℕ)
    (hn : 1 ≤ n) (hz : (weights.map coerceWeight).sum ≤ 0) :
    normalizeWeights weights n = List.replicate n ((1 : ℚ) / n) := by
  have hn0 : n ≠ 0 := by omega
  have hL : ∀ x ∈ weights.map coerceWeight, (0 : ℚ) ≤ x := by
    intro x hx
    rcases List.mem_map.mp hx with ⟨y, _, rfl⟩
    exact le_max_left 0 _
  have hdrop : (0 : ℚ) ≤ ((weights.map coerceWeight).drop n).sum :=
    List.sum_nonneg fun x hx => hL x (List.mem_of_mem_drop hx)
  have hsplit := List.sum_take_add_sum_drop (weights.map coerceWeight) n
  have htail : ((weights.map coerceWeight).take n).sum ≤ 0 := by linarith
  have hcs : (clampedPadded weights n).sum ≤ 0 := by
    simp only [clampedPadded, List.sum_append, List.sum_replicate, smul_zero, add_zero,
      List.map_take]
    exact htail
  rw [normalizeWeights_eq weights n hn0, if_pos hcs]

theorem normalizeWeights_uniform_fallback_witness :
    (1 ≤ 2 ∧ (([some (-1), none, some 0] : List (Option ℚ)).map coerceWeight).sum ≤ 0) ∧
      normalizeWeights [some (-1), none, some 0] 2 = List.replicate 2 ((1 : ℚ) / 2) :=
  ⟨⟨by decide, by norm_num [coerceWeight]⟩,
    normalizeWeights_uniform_fallback [some (-1), none, some 0] 2 (by decide)
      (by norm_num [coerceWeight])⟩

/-- C9: `normalizeWeights` is idempotent for `n ≥ 1` — renormalizing an
already-normalized weight vector returns it unchanged (exactly, in exact
rational arithmetic). -/
theorem normalizeWeights_idempotent (weights : List (Option ℚ)) (n : ℕ) (hn : 1 ≤ n) :
    normalizeWeights ((normalizeWeights weights n).map some) n =
      normalizeWeights weights n := by
  have hn0 : n ≠ 0 := by omega
  obtain ⟨hlen, hpos, hsum⟩ := normalizeWeights_spec weights n hn
  set r := normalizeWeights weights n with hr
  have hmap : r.map (coerceWeight ∘ some) = r := by
    have : ∀ x ∈ r, (coerceWeight ∘ some) x = id x := by
      intro x hx
      simp [coerceWeight, max_eq_right (hpos x hx)]
    rw [List.map_congr_left this, List.map_id]
  have hcp : clampedPadded (r.map some) n = r := by
    have hlenmap : (r.map some).length = n := by rw [List.length_map, hlen]
    have htake : (r.map some).take n = r.map some :=
      List.take_of_length_le (le_of_eq hlenmap)
    simp only [clampedPadded, htake, ← List.map_map] at *
    rw [hmap, hlen]
    simp
  rw [normalizeWeights_eq (r.map some) n hn0, hcp, hsum]
  norm_num

theorem normalizeWeights_idempotent_witness :
    1 ≤ 3 ∧
      normalizeWeights ((normalizeWeights [some 5, some (-2)] 3).map some) 3 =
        normalizeWeights [some 5, some (-2)] 3 :=
  ⟨by decide, normalizeWeights_idempotent [some 5, some (-2)] 3 (by decide)⟩

/-- Models JS `String.prototype.toUpperCase()` (ASCII case mapping). -/
def jsToUpper (s : String) : String := ⟨s.data.map Char.toUpper⟩

/-- Models JS `String.prototype.trim()`: strip leading and trailing
whitespace. -/
def jsTrim (s : String) : String :=
  ⟨((s.data.dropWhile Char.isWhitespace).reverse.dropWhile Char.isWhitespace).reverse⟩

/-- A portfolio as held in the React component state: display name, ticker
strings, and raw weight entries (possibly `NaN`, modelled as `none`). -/
structure Portfolio where
  name : String
  tickers : List String
  weights : List (Option ℚ)
deriving DecidableEq

/-- A portfolio as it appears in the `/api/backtest` request payload. -/
structure PayloadPortfolio where
  name : String
  tickers : List String
  weights : List ℚ
deriving DecidableEq

/-- Embeds the `portfolios` field of the payload built by `runBacktest`
(`frontend/src/App.jsx` lines 213–219): for each state portfolio, drop
falsy (empty-string) tickers, trim and uppercase the rest, renormalize the
raw weights to the kept ticker count (empty weight list if no ticker is
kept), default the name, and finally keep only portfolios with at least
one ticker. -/
def payloadPortfolios (ps : List Portfolio) : List PayloadPortfolio :=
  (ps.map fun p =>
    let tickers := (p.tickers.filter fun t => t ≠ "").map fun t => jsToUpper (jsTrim t)
    { name := if p.name = "" then "Portfolio" else p.name
      tickers := tickers
      weights := if tickers.length = 0 then [] else normalizeWeights p.weights tickers.length
      : PayloadPortfolio }).filter fun q => q.tickers ≠ []

lemma mem_payloadPortfolios {ps : List Portfolio} {q : PayloadPortfolio}
    (hq : q ∈ payloadPortfolios ps) :
    q.tickers ≠ [] ∧
      ∃ p ∈ ps,
        q.tickers = (p.tickers.filter fun t => t ≠ "").map (fun t => jsToUpper (jsTrim t)) ∧
        q.weights = normalizeWeights p.weights q.tickers.length := by
  rw [payloadPortfolios, List.mem_filter] at hq
  obtain ⟨hmem, hne⟩ := hq
  rcases List.mem_map.mp hmem with ⟨p, hp, rfl⟩
  simp only [decide_eq_true_eq] at hne
  refine ⟨hne, p, hp, rfl, ?_⟩
  have hlen : ((p.tickers.filter fun t => t ≠ "").map fun t => jsToUpper (jsTrim t)).length ≠ 0 := by
    intro h
    exact hne (List.eq_nil_of_length_eq_zero h)
  simp only [if_neg hlen]

lemma payloadPortfolios_eq_nil_iff (ps : List Portfolio) :
    payloadPortfolios ps = [] ↔ ∀ p ∈ ps, p.tickers.filter (fun t => t ≠ "") = [] := by
  rw [payloadPortfolios, List.filter_eq_nil_iff]
  constructor
  · intro h p hp
    have := h _ (List.mem_map.mpr ⟨p, hp, rfl⟩)
    simp only [decide_eq_true_eq, not_not] at this
    exact List.map_eq_nil_iff.mp this
  · intro h q hq
    rcases List.mem_map.mp hq with ⟨p, hp, rfl⟩
    simp only [decide_eq_true_eq, not_not]
    rw [h p hp]
    rfl

/-- C2 fails as stated: a whitespace-only raw ticker is truthy, so it
survives `filter(Boolean)`, and only afterwards is it trimmed — to the
empty string.  At the concrete state with one portfolio whose single
ticker is `" "`, the request payload contains an empty ticker symbol. -/
theorem payload_ticker_nonempty_cex :
    ¬ ∀ q ∈ payloadPortfolios [⟨"P", [" "], []⟩], ∀ t ∈ q.tickers, t ≠ "" := by
  intro h
  have h1 : payloadPortfolios [⟨"P", [" "], []⟩] =
      [⟨"P", [""], [1]⟩] := by
    simp [payloadPortfolios, jsTrim, jsToUpper, List.filter_cons, String.reduceEq]
    norm_num [normalizeWeights, coerceWeight]
  rw [h1] at h
  exact h ⟨"P", [""], [1]⟩ (List.mem_singleton.mpr rfl) "" (List.mem_singleton.mpr rfl) rfl

/-- C2 (amended): every portfolio in the `/api/backtest` payload has a
non-empty tickers list obtained by trimming and uppercasing the truthy raw
tickers (a symbol can still be empty when the raw ticker was
whitespace-only), and its weights are `normalizeWeights` of the raw
weights at the kept ticker count — hence non-negative, summing to 1, one
weight per ticker: the engine is only ever sent renormalized portfolios. -/
theorem runBacktest_payload_portfolios (ps : List Portfolio) :
    ∀ q ∈ payloadPortfolios ps,
      q.tickers ≠ [] ∧
      (∃ p ∈ ps,
        q.tickers = (p.tickers.filter fun t => t ≠ "").map (fun t => jsToUpper (jsTrim t)) ∧
        q.weights = normalizeWeights p.weights q.tickers.length) ∧
      q.weights.length = q.tickers.length ∧
      (∀ x ∈ q.weights, 0 ≤ x) ∧
      q.weights.sum = 1 := by
  intro q hq
  obtain ⟨hne, p, hp, ht, hw⟩ := mem_payloadPortfolios hq
  have hlen1 : 1 ≤ q.tickers.length := List.length_pos.mpr hne
  obtain ⟨hl, hpos, hsum⟩ := normalizeWeights_spec p.weights q.tickers.length hlen1
  refine ⟨hne, ⟨p, hp, ht, hw⟩, ?_, ?_, ?_⟩
  · rw [hw, hl]
  · rw [hw]; exact hpos
  · rw [hw, hsum]

theorem runBacktest_payload_portfolios_witness :
    (⟨"Portfolio 1", ["VTI", "BND"], [(6 : ℚ)/10, 4/10]⟩ : PayloadPortfolio) ∈
        payloadPortfolios [⟨"Portfolio 1", ["vti ", "BND"], [some (6/10), some (4/10)]⟩] ∧
      ((⟨"Portfolio 1", ["VTI", "BND"], [(6 : ℚ)/10, 4/10]⟩ : PayloadPortfolio).tickers ≠ [] ∧
        (∃ p ∈ [(⟨"Portfolio 1", ["vti ", "BND"], [some (6/10), some (4/10)]⟩ : Portfolio)],
          (⟨"Portfolio 1", ["VTI", "BND"], [(6 : ℚ)/10, 4/10]⟩ : PayloadPortfolio).tickers =
              (p.tickers.filter fun t => t ≠ "").map (fun t => jsToUpper (jsTrim t)) ∧
          (⟨"Portfolio 1", ["VTI", "BND"], [(6 : ℚ)/10, 4/10]⟩ : PayloadPortfolio).weights =
              normalizeWeights p.weights
                (⟨"Portfolio 1", ["VTI", "BND"], [(6 : ℚ)/10, 4/10]⟩ : PayloadPortfolio).tickers.length) ∧
        (⟨"Portfolio 1", ["VTI", "BND"], [(6 : ℚ)/10, 4/10]⟩ : PayloadPortfolio).weights.length =
            (⟨"Portfolio 1", ["VTI", "BND"], [(6 : ℚ)/10, 4/10]⟩ : PayloadPortfolio).tickers.length ∧
        (∀ x ∈ (⟨"Portfolio 1", ["VTI", "BND"], [(6 : ℚ)/10, 4/10]⟩ : PayloadPortfolio).weights,
            0 ≤ x) ∧
        (⟨"Portfolio 1", ["VTI", "BND"], [(6 : ℚ)/10, 4/10]⟩ : PayloadPortfolio).weights.sum = 1) :=
  have hmem : (⟨"Portfolio 1", ["VTI", "BND"], [(6 : ℚ)/10, 4/10]⟩ : PayloadPortfolio) ∈
      payloadPortfolios [⟨"Portfolio 1", ["vti ", "BND"], [some (6/10), some (4/10)]⟩] := by
    have h1 : payloadPortfolios [⟨"Portfolio 1", ["vti ", "BND"], [some (6/10), some (4/10)]⟩] =
        [⟨"Portfolio 1", ["VTI", "BND"], [(6 : ℚ)/10, 4/10]⟩] := by
      simp [payloadPortfolios, jsTrim, jsToUpper, List.filter_cons, String.reduceEq]
      norm_num [normalizeWeights, coerceWeight]
    rw [h1]
    exact List.mem_singleton.mpr rfl
  ⟨hmem, runBacktest_payload_portfolios _ _ hmem⟩

/-- The body of a JSON response to `/api/backtest`: an optional `error`
value plus the equity-curve map (curve name to list of
`{date, value}` points). -/
structure BacktestData where
  error : Option String
  equity_curves : List (String × List (String × ℚ))
deriving DecidableEq

/-- How the `fetch` to `/api/backtest` resolves: a thrown exception with a
message (network failure / JSON parse failure), or a parsed JSON body. -/
inductive FetchOutcome where
  | failure (msg : String)
  | success (data : BacktestData)
deriving DecidableEq

/-- The component state `runBacktest` leaves behind that is relevant here:
the `result` and `error` states, plus whether a network request was
issued. -/
structure BacktestEnd where
  result : Option BacktestData
  error : Option String
  requested : Bool
deriving DecidableEq

/-- JS truthiness of the `error` field of a parsed JSON body
(`if (data.error)`): an absent/null `error` and the empty string are
falsy. -/
def errTruthy : Option String → Bool
  | none => false
  | some s => s ≠ ""

/-- The development-mode API base URL (`getApiBase`, with the Vite env
override and production same-origin branches collapsed to the local
default — the claims do not depend on the URL text). -/
def apiBase : String := "http://localhost:8000"

/-- Embeds `runBacktest` (`frontend/src/App.jsx` lines 209–248) as a
function from the portfolios state and the fetch outcome to the final
result/error state: `setError(null); setResult(null)` at entry, validation
error (no request) when the payload has no portfolio, the catch branch
with `e.message || ...` fallback on a failed fetch, and the
`data.error`-truthy check on a parsed body. -/
def runBacktest (ps : List Portfolio) (resp : FetchOutcome) : BacktestEnd :=
  if payloadPortfolios ps = [] then
    { result := none
      error := some "Add at least one portfolio with at least one ticker."
      requested := false }
  else
    match resp with
    | .failure msg =>
        { result := none
          error := some (if msg = "" then
              "Request failed. Is the backend running on " ++ apiBase ++ "?" else msg)
          requested := true }
    | .success data =>
        if errTruthy data.error then
          { result := none, error := data.error, requested := true }
        else
          { result := some data, error := none, requested := true }

/-- C6 fails as stated on one point: a response body whose `error` field is
present but an empty string is falsy for `if (data.error)`, so
`runBacktest` stores it as a successful result — the response carries an
error field yet `result` is set and `error` stays null. -/
theorem runBacktest_error_field_cex :
    (⟨some "", []⟩ : BacktestData).error.isSome = true ∧
      (runBacktest [⟨"Portfolio 1", ["VTI"], [some 1]⟩]
          (.success ⟨some "", []⟩)).result = some ⟨some "", []⟩ ∧
      (runBacktest [⟨"Portfolio 1", ["VTI"], [some 1]⟩]
          (.success ⟨some "", []⟩)).error = none := by
  refine ⟨rfl, ?_, ?_⟩ <;>
    simp [runBacktest, payloadPortfolios, jsTrim, jsToUpper, errTruthy, String.reduceEq]

/-- C6 (amended): every invocation of `runBacktest` ends with at most one
of `result`/`error` set.  If no portfolio contains a non-empty ticker, an
error message is set and no request is issued.  On a parsed response with
a truthy (non-empty) `error` value, that error is stored and `result`
stays null; on a response without a truthy `error` value, the body is
stored as `result` and `error` stays null — a partial result is never
exposed together with an error. -/
theorem runBacktest_exclusive (ps : List Portfolio) (resp : FetchOutcome) :
    (¬((runBacktest ps resp).result.isSome ∧ (runBacktest ps resp).error.isSome)) ∧
      ((∀ p ∈ ps, p.tickers.filter (fun t => t ≠ "") = []) →
        (runBacktest ps resp).error.isSome ∧ (runBacktest ps resp).requested = false ∧
          (runBacktest ps resp).result = none) ∧
      (∀ d, resp = .success d → ¬(∀ p ∈ ps, p.tickers.filter (fun t => t ≠ "") = []) →
        (errTruthy d.error = true →
          (runBacktest ps resp).error = d.error ∧ (runBacktest ps resp).result = none) ∧
        (errTruthy d.error = false →
          (runBacktest ps resp).result = some d ∧ (runBacktest ps resp).error = none)) := by
  by_cases hnil : payloadPortfolios ps = []
  · have hall := (payloadPortfolios_eq_nil_iff ps).mp hnil
    simp only [runBacktest, if_pos hnil]
    refine ⟨by simp, fun _ => by simp, fun d hd hx => absurd hall hx⟩
  · have hall : ¬∀ p ∈ ps, p.tickers.filter (fun t => t ≠ "") = [] :=
      fun h => hnil ((payloadPortfolios_eq_nil_iff ps).mpr h)
    simp only [runBacktest, if_neg hnil]
    cases resp with
    | failure msg =>
        refine ⟨by simp, fun h => absurd h hall, fun d hd => by cases hd⟩
    | success data =>
        by_cases he : errTruthy data.error = true
        · simp only [if_pos he]
          refine ⟨by simp, fun h => absurd h hall, fun d hd _ => ?_⟩
          cases hd
          exact ⟨fun _ => by simp, fun hf => by rw [he] at hf; cases hf⟩
        · simp only [if_neg he]
          refine ⟨by simp, fun h => absurd h hall, fun d hd _ => ?_⟩
          cases hd
          exact ⟨fun ht => absurd ht he, fun _ => by simp⟩

theorem runBacktest_exclusive_witness :
    (¬∀ p ∈ [(⟨"Portfolio 1", ["VTI"], [some 1]⟩ : Portfolio)],
        p.tickers.filter (fun t => t ≠ "") = []) ∧
      errTruthy (some "boom") = true ∧
      (runBacktest [⟨"Portfolio 1", ["VTI"], [some 1]⟩]
          (.success ⟨some "boom", []⟩)).error = some "boom" ∧
      (runBacktest [⟨"Portfolio 1", ["VTI"], [some 1]⟩]
          (.success ⟨some "boom", []⟩)).result = none :=
  have h1 : ¬∀ p ∈ [(⟨"Portfolio 1", ["VTI"], [some 1]⟩ : Portfolio)],
      p.tickers.filter (fun t => t ≠ "") = [] := by decide
  have h2 := ((runBacktest_exclusive [⟨"Portfolio 1", ["VTI"], [some 1]⟩]
      (.success ⟨some "boom", []⟩)).2.2 ⟨some "boom", []⟩ rfl h1).1 (by decide)
  ⟨h1, by decide, h2.1, h2.2⟩

/-- Embeds `tickers.split(/[\s,]+/).filter(Boolean).map((t) =>
t.trim().toUpperCase())` from `runOptimizer` / `runEfficientFrontier`:
split the input on runs of commas and whitespace (splitting at every such
character and dropping the empty pieces is equivalent to splitting on
runs), then trim and uppercase each kept piece. -/
def parseTickerList (s : String) : List String :=
  (((s.data.splitOnP fun c => c = ',' || c.isWhitespace).map
      fun l => (⟨l⟩ : String)).filter fun t => t ≠ "").map fun t => jsToUpper (jsTrim t)

/-- What a tool handler does after validation: set an error message and
stop, or issue a POST request to its endpoint. -/
inductive ToolAction where
  | fail (msg : String)
  | request (endpoint : String) (tickers : List String) (startDate endDate : String)
deriving DecidableEq

/-- Embeds `runOptimizer` (`frontend/src/App.jsx` lines 270–294): fewer
than 2 parsed tickers sets the error `Enter at least 2 tickers` and issues
no request; otherwise the request goes to `/api/optimizer`. -/
def runOptimizer (input startDate endDate : String) : ToolAction :=
  let tickers := parseTickerList input
  if tickers.length < 2 then .fail "Enter at least 2 tickers"
  else .request "/api/optimizer" tickers startDate endDate

/-- Embeds `runEfficientFrontier` (`frontend/src/App.jsx` lines 296–320):
identical validation, endpoint `/api/efficient_frontier`. -/
def runEfficientFrontier (input startDate endDate : String) : ToolAction :=
  let tickers := parseTickerList input
  if tickers.length < 2 then .fail "Enter at least 2 tickers"
  else .request "/api/efficient_frontier" tickers startDate endDate

/-- C5: on an input that parses to fewer than 2 ticker symbols, both
`runOptimizer` and `runEfficientFrontier` fail with the error
`Enter at least 2 tickers` and issue no request; with 2 or more symbols
they issue the request to their endpoint carrying the trimmed, uppercased
symbols. -/
theorem optimizer_min_two_tickers (s d1 d2 : String) :
    ((parseTickerList s).length < 2 →
      runOptimizer s d1 d2 = .fail "Enter at least 2 tickers" ∧
      runEfficientFrontier s d1 d2 = .fail "Enter at least 2 tickers") ∧
    (2 ≤ (parseTickerList s).length →
      runOptimizer s d1 d2 = .request "/api/optimizer" (parseTickerList s) d1 d2 ∧
      runEfficientFrontier s d1 d2 =
        .request "/api/efficient_frontier" (parseTickerList s) d1 d2) := by
  constructor
  · intro h
    exact ⟨by rw [runOptimizer, if_pos h], by rw [runEfficientFrontier, if_pos h]⟩
  · intro h
    have h' : ¬(parseTickerList s).length < 2 := Nat.not_lt.mpr h
    exact ⟨by rw [runOptimizer, if_neg h'], by rw [runEfficientFrontier, if_neg h']⟩

theorem optimizer_min_two_tickers_witness :
    ((parseTickerList "VTI").length < 2 ∧
      runOptimizer "VTI" "2015-01-01" "2020-01-01" = .fail "Enter at least 2 tickers") ∧
    (2 ≤ (parseTickerList " vti, bnd ").length ∧
      runEfficientFrontier " vti, bnd " "2015-01-01" "2020-01-01" =
        .request "/api/efficient_frontier" ["VTI", "BND"] "2015-01-01" "2020-01-01") :=
  have h1 : (parseTickerList "VTI").length < 2 := by decide
  have h2 : 2 ≤ (parseTickerList " vti, bnd ").length := by decide
  have e2 : parseTickerList " vti, bnd " = ["VTI", "BND"] := by decide
  ⟨⟨h1, ((optimizer_min_two_tickers "VTI" "2015-01-01" "2020-01-01").1 h1).1⟩,
    ⟨h2, by
      rw [← e2]
      exact ((optimizer_min_two_tickers " vti, bnd " "2015-01-01" "2020-01-01").2 h2).2⟩⟩

/-- The request body `runTvm` sends to `/api/tvm`.  The four solvable
slots are JS `number | null`: the outer `Option` is nullability (`none` =
`null`), the inner `Option` is the `parseFloat` result (`none` = `NaN`). -/
structure TvmPayload where
  pv : Option (Option ℚ)
  fv : Option (Option ℚ)
  rate : Option (Option ℚ)
  nper : Option (Option ℚ)
  pmt : ℚ
  rate_decimal : Bool
deriving DecidableEq

/-- Embeds the payload construction in `runTvm` (`frontend/src/App.jsx`
lines 355–363).  `parseFloat` is passed in as `pf : String → Option ℚ`
(`none` = `NaN`) since the construction is parametric in it; each slot is
`null` exactly on the empty input string, and `pmt` is
`parseFloat(tvmPmt) || 0` — `NaN` and `0` both collapse to `0`. -/
def buildTvmPayload (pf : String → Option ℚ)
    (sPv sFv sRate sNper sPmt : String) : TvmPayload :=
  { pv := if sPv = "" then none else some (pf sPv)
    fv := if sFv = "" then none else some (pf sFv)
    rate := if sRate = "" then none else some (pf sRate)
    nper := if sNper = "" then none else some (pf sNper)
    pmt := match pf sPmt with
      | none => 0
      | some q => if q = 0 then 0 else q
    rate_decimal := true }

/-- C4: in the `/api/tvm` payload each of `pv`, `fv`, `rate`, `nper` is
null exactly when its text input is the empty string and is the parsed
number otherwise, and `pmt` always carries a numeric value, equal to `0`
whenever its input is empty or does not parse to a nonzero number.
`hpf` records the JS fact `parseFloat('') = NaN`. -/
theorem runTvm_payload_fields (pf : String → Option ℚ) (hpf : pf "" = none)
    (sPv sFv sRate sNper sPmt : String) :
    ((buildTvmPayload pf sPv sFv sRate sNper sPmt).pv = none ↔ sPv = "") ∧
    (sPv ≠ "" → (buildTvmPayload pf sPv sFv sRate sNper sPmt).pv = some (pf sPv)) ∧
    ((buildTvmPayload pf sPv sFv sRate sNper sPmt).fv = none ↔ sFv = "") ∧
    (sFv ≠ "" → (buildTvmPayload pf sPv sFv sRate sNper sPmt).fv = some (pf sFv)) ∧
    ((buildTvmPayload pf sPv sFv sRate sNper sPmt).rate = none ↔ sRate = "") ∧
    (sRate ≠ "" → (buildTvmPayload pf sPv sFv sRate sNper sPmt).rate = some (pf sRate)) ∧
    ((buildTvmPayload pf sPv sFv sRate sNper sPmt).nper = none ↔ sNper = "") ∧
    (sNper ≠ "" → (buildTvmPayload pf sPv sFv sRate sNper sPmt).nper = some (pf sNper)) ∧
    (sPmt = "" ∨ pf sPmt = none ∨ pf sPmt = some 0 →
      (buildTvmPayload pf sPv sFv sRate sNper sPmt).pmt = 0) ∧
    (∀ q : ℚ, pf sPmt = some q → q ≠ 0 →
      (buildTvmPayload pf sPv sFv sRate sNper sPmt).pmt = q) := by
  refine ⟨?_, ?_, ?_, ?_, ?_, ?_, ?_, ?_, ?_, ?_⟩
  · constructor
    · intro h
      by_contra hne
      rw [buildTvmPayload] at h
      simp only [if_neg hne] at h
      exact Option.noConfusion h
    · intro h
      simp [buildTvmPayload, if_pos h]
  · intro h
    simp [buildTvmPayload, if_neg h]
  · constructor
    · intro h
      by_contra hne
      rw [buildTvmPayload] at h
      simp only [if_neg hne] at h
      exact Option.noConfusion h
    · intro h
      simp [buildTvmPayload, if_pos h]
  · intro h
    simp [buildTvmPayload, if_neg h]
  · constructor
    · intro h
      by_contra hne
      rw [buildTvmPayload] at h
      simp only [if_neg hne] at h
      exact Option.noConfusion h
    · intro h
      simp [buildTvmPayload, if_pos h]
  · intro h
    simp [buildTvmPayload, if_neg h]
  · constructor
    · intro h
      by_contra hne
      rw [buildTvmPayload] at h
      simp only [if_neg hne] at h
      exact Option.noConfusion h
    · intro h
      simp [buildTvmPayload, if_pos h]
  · intro h
    simp [buildTvmPayload, if_neg h]
  · rintro (h | h | h)
    · subst h
      simp [buildTvmPayload, hpf]
    · simp [buildTvmPayload, h]
    · simp [buildTvmPayload, h]
  · intro q hq hqne
    simp [buildTvmPayload, hq, if_neg hqne]

/-- A concrete stand-in for `parseFloat` used to exercise
`runTvm_payload_fields` on concrete inputs. -/
def pfSample (s : String) : Option ℚ :=
  if s = "100" then some 100 else if s = "0.05" then some (5 / 100) else none

theorem runTvm_payload_fields_witness :
    pfSample "" = none ∧
    (((buildTvmPayload pfSample "100" "" "0.05" "" "abc").pv = none ↔ ("100" : String) = "") ∧
      (("100" : String) ≠ "" →
        (buildTvmPayload pfSample "100" "" "0.05" "" "abc").pv = some (pfSample "100")) ∧
      ((buildTvmPayload pfSample "100" "" "0.05" "" "abc").fv = none ↔ ("" : String) = "") ∧
      (("" : String) ≠ "" →
        (buildTvmPayload pfSample "100" "" "0.05" "" "abc").fv = some (pfSample "")) ∧
      ((buildTvmPayload pfSample "100" "" "0.05" "" "abc").rate = none ↔ ("0.05" : String) = "") ∧
      (("0.05" : String) ≠ "" →
        (buildTvmPayload pfSample "100" "" "0.05" "" "abc").rate = some (pfSample "0.05")) ∧
      ((buildTvmPayload pfSample "100" "" "0.05" "" "abc").nper = none ↔ ("" : String) = "") ∧
      (("" : String) ≠ "" →
        (buildTvmPayload pfSample "100" "" "0.05" "" "abc").nper = some (pfSample "")) ∧
      (("abc" : String) = "" ∨ pfSample "abc" = none ∨ pfSample "abc" = some 0 →
        (buildTvmPayload pfSample "100" "" "0.05" "" "abc").pmt = 0) ∧
      (∀ q : ℚ, pfSample "abc" = some q → q ≠ 0 →
        (buildTvmPayload pfSample "100" "" "0.05" "" "abc").pmt = q)) :=
  ⟨rfl, runTvm_payload_fields pfSample rfl "100" "" "0.05" "" "abc"⟩

/-- Modelled from the spec: the error taxonomy of §7 restricted to the
kinds the TVM solver of §4.8 can raise; the solver itself is backend code
that is not under `src/`. -/
inductive TVMError where
  | UnderdeterminedError
  | OverdeterminedError
  | NoSolutionError
  | NonConvergenceError
deriving DecidableEq

/-- Modelled from the spec: `TVMInputs` of §3 — five named slots, of which
`pv`, `fv`, `rate`, `nper` may be unset (`none`) and `pmt` always has a
value (default 0).  Values are real numbers, matching the real-analytic
relation of §4.8. -/
structure TVMInputs where
  pv : Option ℝ
  fv : Option ℝ
  rate : Option ℝ
  nper : Option ℝ
  pmt : ℝ

/-- Number of unset slots among `{pv, fv, rate, nper}`. -/
def unsetCount (x : TVMInputs) : ℕ :=
  [x.pv, x.fv, x.rate, x.nper].countP Option.isNone

/-- Modelled from the spec: the residual of the ordinary-annuity relation
`pv*(1+i)^n + pmt*((1+i)^n - 1)/i + fv = 0` of §4.8, with the degenerate
`i = 0` case `pv + pmt*n + fv = 0`. -/
noncomputable def tvmResidual (pv fv rate nper pmt : ℝ) : ℝ :=
  if rate = 0 then pv + pmt * nper + fv
  else pv * (1 + rate) ^ nper + pmt * ((1 + rate) ^ nper - 1) / rate + fv

/-- Modelled from the spec: closed-form solution for `pv` (§4.8). -/
noncomputable def tvmSolvePv (fv rate nper pmt : ℝ) : ℝ :=
  if rate = 0 then -(fv + pmt * nper)
  else -(fv + pmt * ((1 + rate) ^ nper - 1) / rate) / (1 + rate) ^ nper

/-- Modelled from the spec: closed-form solution for `fv` (§4.8). -/
noncomputable def tvmSolveFv (pv rate nper pmt : ℝ) : ℝ :=
  if rate = 0 then -(pv + pmt * nper)
  else -(pv * (1 + rate) ^ nper + pmt * ((1 + rate) ^ nper - 1) / rate)

/-- Modelled from the spec: closed-form solution for `nper` via a
logarithm, failing with `NoSolutionError` when the base or argument of the
logarithm is degenerate (§4.8). -/
noncomputable def tvmSolveNper (pv fv rate pmt : ℝ) : Except TVMError ℝ :=
  if rate = 0 then
    if pmt = 0 then .error .NoSolutionError else .ok (-(pv + fv) / pmt)
  else
    let x := (pmt / rate - fv) / (pv + pmt / rate)
    if x ≤ 0 ∨ 1 + rate ≤ 0 then .error .NoSolutionError
    else .ok (Real.log x / Real.log (1 + rate))

/-- Modelled from the spec: bounded bisection for the unknown rate over
the domain `[-0.99, 10]` (§4.8), converging when the residual drops below
a small epsilon, with a hard iteration bound. -/
noncomputable def tvmRateBisect (pv fv nper pmt : ℝ) :
    ℕ → ℝ → ℝ → Except TVMError ℝ
  | 0, _, _ => .error .NonConvergenceError
  | fuel + 1, lo, hi =>
    let mid := (lo + hi) / 2
    let r := tvmResidual pv fv mid nper pmt
    if |r| < 1 / 1000000 then .ok mid
    else if tvmResidual pv fv lo nper pmt * r ≤ 0 then
      tvmRateBisect pv fv nper pmt fuel lo mid
    else tvmRateBisect pv fv nper pmt fuel mid hi

/-- Modelled from the spec: the rate solver — fails with
`NonConvergenceError` when no sign change exists over the search domain,
otherwise bisects with a fixed iteration budget (§4.8, §5). -/
noncomputable def tvmSolveRate (pv fv nper pmt : ℝ) : Except TVMError ℝ :=
  if 0 < tvmResidual pv fv (-(99 / 100)) nper pmt * tvmResidual pv fv 10 nper pmt then
    .error .NonConvergenceError
  else tvmRateBisect pv fv nper pmt 100 (-(99 / 100)) 10

/-- Modelled from the spec: `solve_tvm` (§4.8, §6) — not in `src/`.
Fails with `UnderdeterminedError` when zero of `{pv, fv, rate, nper}` are
unset and with `OverdeterminedError` when more than one is unset; with
exactly one unset slot it solves the annuity relation for that slot and
returns the fully populated inputs. -/
noncomputable def solve_tvm (x : TVMInputs) : Except TVMError TVMInputs :=
  if unsetCount x = 0 then .error .UnderdeterminedError
  else if 1 < unsetCount x then .error .OverdeterminedError
  else
    match x.pv, x.fv, x.rate, x.nper with
    | none, some fv, some rate, some nper =>
        .ok ⟨some (tvmSolvePv fv rate nper x.pmt), some fv, some rate, some nper, x.pmt⟩
    | some pv, none, some rate, some nper =>
        .ok ⟨some pv, some (tvmSolveFv pv rate nper x.pmt), some rate, some nper, x.pmt⟩
    | some pv, some fv, none, some nper =>
        (tvmSolveRate pv fv nper x.pmt).map
          fun r => ⟨some pv, some fv, some r, some nper, x.pmt⟩
    | some pv, some fv, some rate, none =>
        (tvmSolveNper pv fv rate x.pmt).map
          fun n => ⟨some pv, some fv, some rate, some n, x.pmt⟩
    | _, _, _, _ => .error .OverdeterminedError

/-- C3 (spec-modelled): `solve_tvm` fails with `UnderdeterminedError`
when zero of the four slots are unset and with `OverdeterminedError` when
more than one is unset; in both cases the return value is the error alone,
never a populated result. -/
theorem solve_tvm_arity (x : TVMInputs) :
    (unsetCount x = 0 → solve_tvm x = .error .UnderdeterminedError) ∧
    (1 < unsetCount x → solve_tvm x = .error .OverdeterminedError) := by
  constructor
  · intro h
    rw [solve_tvm, if_pos h]
  · intro h
    have h0 : unsetCount x ≠ 0 := by omega
    rw [solve_tvm, if_neg h0, if_pos h]

theorem solve_tvm_arity_witness :
    (unsetCount ⟨some 1, some 2, some 1, some 3, 0⟩ = 0 ∧
      solve_tvm ⟨some 1, some 2, some 1, some 3, 0⟩ = .error .UnderdeterminedError) ∧
    (1 < unsetCount ⟨none, none, some 1, some 3, 0⟩ ∧
      solve_tvm ⟨none, none, some 1, some 3, 0⟩ = .error .OverdeterminedError) :=
  ⟨⟨rfl, (solve_tvm_arity ⟨some 1, some 2, some 1, some 3, 0⟩).1 rfl⟩,
    ⟨by decide, (solve_tvm_arity ⟨none, none, some 1, some 3, 0⟩).2 (by decide)⟩⟩

/-- Code-point comparison of character lists: models the ascending order
produced by sorting with `a.date.localeCompare(b.date)` on the ASCII date
strings used here. -/
def charListLe : List Char → List Char → Bool
  | [], _ => true
  | _ :: _, [] => false
  | a :: as, b :: bs =>
    if a < b then true else if b < a then false else charListLe as bs

lemma charListLe_total : ∀ x y, charListLe x y = true ∨ charListLe y x = true
  | [], _ => .inl rfl
  | _ :: _, [] => .inr rfl
  | a :: as, b :: bs => by
    simp only [charListLe]
    rcases lt_trichotomy a b with h | h | h
    · left
      rw [if_pos h]
    · subst h
      rcases charListLe_total as bs with ih | ih
      · left
        rw [if_neg (lt_irrefl a), if_neg (lt_irrefl a)]
        exact ih
      · right
        rw [if_neg (lt_irrefl a), if_neg (lt_irrefl a)]
        exact ih
    · right
      rw [if_pos h]

lemma charListLe_trans :
    ∀ x y z, charListLe x y = true → charListLe y z = true → charListLe x z = true
  | [], _, _, _, _ => rfl
  | _ :: _, [], _, hxy, _ => by simp [charListLe] at hxy
  | _ :: _, _ :: _, [], _, hyz => by simp [charListLe] at hyz
  | a :: as, b :: bs, c :: cs, hxy, hyz => by
    simp only [charListLe] at hxy hyz ⊢
    rcases lt_trichotomy a b with hab | hab | hab
    · rw [if_pos hab] at hxy
      rcases lt_trichotomy b c with hbc | hbc | hbc
      · rw [if_pos (lt_trans hab hbc)]
      · subst hbc
        rw [if_pos hab]
      · rw [if_neg (lt_asymm hbc), if_pos hbc] at hyz
        exact absurd hyz (by simp)
    · subst hab
      rw [if_neg (lt_irrefl a), if_neg (lt_irrefl a)] at hxy
      rcases lt_trichotomy a c with hac | hac | hac
      · rw [if_pos hac]
      · subst hac
        rw [if_neg (lt_irrefl a), if_neg (lt_irrefl a)] at hyz ⊢
        exact charListLe_trans as bs cs hxy hyz
      · rw [if_neg (lt_asymm hac), if_pos hac] at hyz
        exact absurd hyz (by simp)
    · rw [if_neg (lt_asymm hab), if_pos hab] at hxy
      exact absurd hxy (by simp)

/-- Order on strings by code points (the `localeCompare` ascending order
for the ASCII dates here). -/
def strLe (a b : String) : Bool := charListLe a.data b.data

/-- A JS value stored in a chart-row object: the `date` property holds a
string, curve-name properties hold numbers — and both live in the same
key space of one flat object. -/
inductive JsVal where
  | str (s : String)
  | num (q : ℚ)
deriving DecidableEq

/-- A row of the chart data: one flat JS object
`{ date, [name]: value, ... }`, as an association list in insertion
order — the `date` property shares its key space with the curve names. -/
abbrev ChartRow := List (String × JsVal)

/-- JS property read `m[k]` on an object modelled as an association list
in insertion order. -/
def getKey {α : Type} : List (String × α) → String → Option α
  | [], _ => none
  | e :: rest, k => if e.1 = k then some e.2 else getKey rest k

/-- JS property write `m[k] = v`: update in place if the key exists
(keeping its position), otherwise append the new property. -/
def jsSet {α : Type} (m : List (String × α)) (k : String) (v : α) :
    List (String × α) :=
  if m.any (fun e => e.1 = k) then
    m.map fun e => if e.1 = k then (k, v) else e
  else m ++ [(k, v)]

lemma getKey_append {α : Type} (m1 m2 : List (String × α)) (k : String) :
    getKey (m1 ++ m2) k =
      match getKey m1 k with
      | some v => some v
      | none => getKey m2 k := by
  induction m1 with
  | nil => rfl
  | cons e rest ih =>
    by_cases he : e.1 = k
    · simp [getKey, if_pos he]
    · simp only [List.cons_append, getKey, if_neg he]
      exact ih

lemma getKey_eq_none_of_not_mem {α : Type} {m : List (String × α)} {k : String}
    (h : k ∉ m.map Prod.fst) : getKey m k = none := by
  induction m with
  | nil => rfl
  | cons e rest ih =>
    simp only [List.map_cons, List.mem_cons] at h
    push_neg at h
    simp only [getKey]
    rw [if_neg (fun he : e.1 = k => h.1 he.symm)]
    exact ih h.2

lemma mem_keys_of_getKey_eq_some {α : Type} {m : List (String × α)} {k : String} {v : α}
    (h : getKey m k = some v) : k ∈ m.map Prod.fst := by
  by_contra hk
  rw [getKey_eq_none_of_not_mem hk] at h
  exact Option.noConfusion h

lemma getKey_eq_some_iff {α : Type} (m : List (String × α))
    (h : (m.map Prod.fst).Nodup) (k : String) (v : α) :
    getKey m k = some v ↔ (k, v) ∈ m := by
  induction m with
  | nil => simp [getKey]
  | cons e rest ih =>
    rw [List.map_cons, List.nodup_cons] at h
    by_cases he : e.1 = k
    · simp only [getKey, if_pos he, List.mem_cons]
      constructor
      · intro hv
        left
        rw [← he, ← Option.some_inj.mp hv]
      · rintro (hh | hh)
        · rw [← hh]
        · exact absurd (he ▸ List.mem_map.mpr ⟨(k, v), hh, rfl⟩) h.1
    · simp only [getKey, if_neg he, List.mem_cons]
      rw [ih h.2]
      constructor
      · exact Or.inr
      · rintro (hh | hh)
        · exact absurd (congrArg Prod.fst hh).symm he
        · exact hh

lemma getKey_mapSet_ne {α : Type} (m : List (String × α)) (k k' : String) (v : α)
    (h : k' ≠ k) :
    getKey (m.map fun e => if e.1 = k then (k, v) else e) k' = getKey m k' := by
  induction m with
  | nil => rfl
  | cons e rest ih =>
    by_cases he : e.1 = k
    · simp only [List.map_cons, if_pos he, getKey]
      rw [if_neg (fun hh : k = k' => h hh.symm),
        if_neg (fun hh : e.1 = k' => h (he.symm.trans hh).symm)]
      exact ih
    · simp only [List.map_cons, if_neg he, getKey]
      by_cases he' : e.1 = k'
      · rw [if_pos he', if_pos he']
      · rw [if_neg he', if_neg he']
        exact ih

lemma getKey_mapSet_eq {α : Type} (m : List (String × α)) (k : String) (v : α)
    (h : m.any (fun e => e.1 = k) = true) :
    getKey (m.map fun e => if e.1 = k then (k, v) else e) k = some v := by
  induction m with
  | nil => simp at h
  | cons e rest ih =>
    by_cases he : e.1 = k
    · simp [getKey, if_pos he]
    · have h' : rest.any (fun e => e.1 = k) = true := by
        simpa [List.any_cons, he] using h
      simp only [List.map_cons, if_neg he, getKey, if_neg he]
      exact ih h'

lemma getKey_jsSet {α : Type} (m : List (String × α)) (k k' : String) (v : α) :
    getKey (jsSet m k v) k' = if k' = k then some v else getKey m k' := by
  rw [jsSet]
  by_cases hany : m.any (fun e => e.1 = k) = true
  · rw [if_pos hany]
    by_cases hk : k' = k
    · rw [if_pos hk, hk, getKey_mapSet_eq m k v hany]
    · rw [if_neg hk, getKey_mapSet_ne m k k' v hk]
  · rw [if_neg hany]
    have hnm : k ∉ m.map Prod.fst := by
      intro hmem
      rcases List.mem_map.mp hmem with ⟨e, he, hek⟩
      exact hany (List.any_eq_true.mpr ⟨e, he, by simp [hek]⟩)
    rw [getKey_append]
    by_cases hk : k' = k
    · rw [if_pos hk, hk, getKey_eq_none_of_not_mem hnm]
      simp [getKey]
    · rw [if_neg hk]
      cases hg : getKey m k' with
      | some w => rfl
      | none => simp [getKey, if_neg (fun hh : k = k' => hk hh.symm)]

lemma keys_jsSet {α : Type} (m : List (String × α)) (k : String) (v : α) :
    (jsSet m k v).map Prod.fst =
      if m.any (fun e => e.1 = k) = true then m.map Prod.fst
      else m.map Prod.fst ++ [k] := by
  rw [jsSet]
  by_cases hany : m.any (fun e => e.1 = k) = true
  · rw [if_pos hany, if_pos hany, List.map_map]
    refine List.map_congr_left fun e _ => ?_
    by_cases he : e.1 = k
    · simp [he]
    · simp [he]
  · rw [if_neg hany, if_neg hany, List.map_append]
    rfl

lemma mem_keys_jsSet {α : Type} (m : List (String × α)) (k : String) (v : α) (d : String) :
    d ∈ (jsSet m k v).map Prod.fst ↔ d ∈ m.map Prod.fst ∨ d = k := by
  rw [keys_jsSet]
  by_cases hany : m.any (fun e => e.1 = k) = true
  · rw [if_pos hany]
    constructor
    · exact Or.inl
    · rintro (h | h)
      · exact h
      · rcases List.any_eq_true.mp hany with ⟨e, he, hek⟩
        simp only [decide_eq_true_eq] at hek
        exact h ▸ hek ▸ List.mem_map.mpr ⟨e, he, rfl⟩
  · rw [if_neg hany]
    simp

lemma nodup_keys_jsSet {α : Type} (m : List (String × α)) (k : String) (v : α)
    (h : (m.map Prod.fst).Nodup) : ((jsSet m k v).map Prod.fst).Nodup := by
  rw [keys_jsSet]
  by_cases hany : m.any (fun e => e.1 = k) = true
  · rw [if_pos hany]
    exact h
  · rw [if_neg hany]
    have hnm : k ∉ m.map Prod.fst := by
      intro hmem
      rcases List.mem_map.mp hmem with ⟨e, he, hek⟩
      exact hany (List.any_eq_true.mpr ⟨e, he, by simp [hek]⟩)
    simp [List.nodup_append, h, hnm]

/-- Chart rows carry their date under the `"date"` key; `none` when the
property is absent or has been overwritten with a non-string value. -/
def rowDate (r : ChartRow) : Option String :=
  match getKey r "date" with
  | some (JsVal.str s) => some s
  | _ => none

/-- The comparator passed to `.sort((a, b) => a.date.localeCompare(b.date))`,
as a relation on rows; it reads the rows' `date` properties.  The model
totalizes it by defaulting a missing or non-string `date` to `""`: it
coincides with the JS comparator whenever every row's `date` property is a
string — which the hypotheses of `chartData_one_row_per_date` guarantee —
and a sort of at most one row never invokes the comparator at all (the
case `chartData_date_curve_cex` relies on).  On a non-string `date` the
real comparator would throw a TypeError. -/
def rowLe (a b : ChartRow) : Prop :=
  strLe ((rowDate a).getD "") ((rowDate b).getD "") = true

instance : DecidableRel rowLe := fun a b =>
  inferInstanceAs (Decidable (strLe ((rowDate a).getD "") ((rowDate b).getD "") = true))

instance : IsTotal ChartRow rowLe :=
  ⟨fun a b => charListLe_total ((rowDate a).getD "").data ((rowDate b).getD "").data⟩

instance : IsTrans ChartRow rowLe :=
  ⟨fun _ _ _ hab hbc => charListLe_trans _ _ _ hab hbc⟩

lemma getKey_some_mem {α : Type} :
    ∀ {m : List (String × α)} {k : String} {v : α}, getKey m k = some v → (k, v) ∈ m
  | [], _, _, h => absurd h (by simp [getKey])
  | e :: rest, k, v, h => by
    simp only [getKey] at h
    by_cases he : e.1 = k
    · rw [if_pos he] at h
      have hv : e.2 = v := Option.some_inj.mp h
      exact List.mem_cons.mpr (.inl (by rw [← he, ← hv]))
    · rw [if_neg he] at h
      exact List.mem_cons.mpr (.inr (getKey_some_mem h))

lemma mem_jsSet {α : Type} (m : List (String × α)) (k : String) (v : α) :
    ∀ e ∈ jsSet m k v, e ∈ m ∨ e = (k, v) := by
  intro e he
  rw [jsSet] at he
  by_cases hany : m.any (fun x => x.1 = k) = true
  · rw [if_pos hany] at he
    rcases List.mem_map.mp he with ⟨x, hx, rfl⟩
    by_cases hxk : x.1 = k
    · rw [if_pos hxk]
      exact .inr rfl
    · rw [if_neg hxk]
      exact .inl hx
  · rw [if_neg hany] at he
    rcases List.mem_append.mp he with h | h
    · exact .inl h
    · exact .inr (List.mem_singleton.mp h)

/-- The fresh row object `{ date }`: the date string stored under the
`"date"` key, in the same key space later used for curve names. -/
def newRow (date : String) : ChartRow := [("date", JsVal.str date)]

/-- One step of the chart-data accumulation
(`if (!byDate[date]) byDate[date] = { date }; byDate[date][name] = value`):
fetch the row for `date` (creating `{ date }` when absent), set its `name`
property — which overwrites the `date` property when the curve is named
`"date"` — and store the row back under `date`. -/
def addPoint (bd : List (String × ChartRow)) (name date : String) (value : ℚ) :
    List (String × ChartRow) :=
  jsSet bd date (jsSet ((getKey bd date).getD (newRow date)) name (JsVal.num value))

/-- The value stored under key `k` in the row for date `d` (`none` when
the row or the property is absent). -/
def cell (bd : List (String × ChartRow)) (d k : String) : Option JsVal :=
  getKey ((getKey bd d).getD []) k

lemma cell_addPoint (bd : List (String × ChartRow)) (name date : String) (v : ℚ)
    (d k : String) (hk : k ≠ "date") :
    cell (addPoint bd name date v) d k =
      if d = date ∧ k = name then some (JsVal.num v) else cell bd d k := by
  unfold cell addPoint
  rw [getKey_jsSet]
  by_cases hd : d = date
  · subst hd
    rw [if_pos rfl, Option.getD_some, getKey_jsSet]
    by_cases hkn : k = name
    · rw [if_pos hkn, if_pos ⟨rfl, hkn⟩]
    · rw [if_neg hkn, if_neg (fun h => hkn h.2)]
      cases hrow : getKey bd d with
      | some r => simp only [Option.getD_some]
      | none =>
        simp only [Option.getD_none, newRow, getKey]
        rw [if_neg (fun h : "date" = k => hk h.symm)]
  · rw [if_neg hd, if_neg (fun h => hd h.1)]

/-- Every accumulated row still carries its own date string under the
`"date"` key — preserved as long as the written curve names avoid
`"date"`. -/
def RowsDated (bd : List (String × ChartRow)) : Prop :=
  ∀ e ∈ bd, getKey e.2 "date" = some (JsVal.str e.1)

lemma rowsDated_addPoint (bd : List (String × ChartRow)) (name date : String) (v : ℚ)
    (hname : name ≠ "date") (h : RowsDated bd) : RowsDated (addPoint bd name date v) := by
  intro e he
  rcases mem_jsSet _ _ _ e he with he' | rfl
  · exact h e he'
  · show getKey (jsSet ((getKey bd date).getD (newRow date)) name (JsVal.num v)) "date" =
      some (JsVal.str date)
    rw [getKey_jsSet, if_neg (fun hh : "date" = name => hname hh.symm)]
    cases hrow : getKey bd date with
    | some r =>
      rw [Option.getD_some]
      exact h (date, r) (getKey_some_mem hrow)
    | none =>
      rw [Option.getD_none]
      simp [newRow, getKey]

lemma mem_keys_addPoint (bd : List (String × ChartRow)) (name date : String) (v : ℚ)
    (d : String) :
    d ∈ (addPoint bd name date v).map Prod.fst ↔ d ∈ bd.map Prod.fst ∨ d = date :=
  mem_keys_jsSet bd date _ d

lemma nodup_keys_addPoint (bd : List (String × ChartRow)) (name date : String) (v : ℚ)
    (h : (bd.map Prod.fst).Nodup) : ((addPoint bd name date v).map Prod.fst).Nodup :=
  nodup_keys_jsSet bd date _ h

/-- The inner `forEach` of `chartData`: fold all points of one named curve
into the accumulator. -/
def addCurve (bd : List (String × ChartRow)) (name : String)
    (pts : List (String × ℚ)) : List (String × ChartRow) :=
  pts.foldl (fun b pt => addPoint b name pt.1 pt.2) bd

lemma cell_addCurve :
    ∀ (pts : List (String × ℚ)) (bd : List (String × ChartRow)) (name d k : String),
    k ≠ "date" →
    cell (addCurve bd name pts) d k =
      if k = name then
        match getKey pts.reverse d with
        | some v => some (JsVal.num v)
        | none => cell bd d k
      else cell bd d k
  | [], bd, name, d, k, _ => by
    simp only [addCurve, List.foldl_nil, List.reverse_nil, getKey]
    split_ifs <;> rfl
  | pt :: rest, bd, name, d, k, hk => by
    have ih := cell_addCurve rest (addPoint bd name pt.1 pt.2) name d k hk
    show cell (addCurve (addPoint bd name pt.1 pt.2) name rest) d k = _
    rw [ih]
    have hrev : (pt :: rest).reverse = rest.reverse ++ [pt] := by simp
    rw [hrev, getKey_append]
    by_cases hkn : k = name
    · rw [if_pos hkn, if_pos hkn]
      cases hrest : getKey rest.reverse d with
      | some v => rfl
      | none =>
        rw [cell_addPoint bd name pt.1 pt.2 d k hk]
        by_cases hd : d = pt.1
        · rw [if_pos ⟨hd, hkn⟩]
          simp [getKey, hd.symm]
        · rw [if_neg (fun hh => hd hh.1)]
          simp only [getKey]
          rw [if_neg (fun hh : pt.1 = d => hd hh.symm)]
    · rw [if_neg hkn, if_neg hkn, cell_addPoint bd name pt.1 pt.2 d k hk,
        if_neg (fun hh => hkn hh.2)]

lemma mem_keys_addCurve :
    ∀ (pts : List (String × ℚ)) (bd : List (String × ChartRow)) (name d : String),
    d ∈ (addCurve bd name pts).map Prod.fst ↔
      d ∈ bd.map Prod.fst ∨ d ∈ pts.map Prod.fst
  | [], _, _, _ => by simp [addCurve]
  | pt :: rest, bd, name, d => by
    show d ∈ (addCurve (addPoint bd name pt.1 pt.2) name rest).map Prod.fst ↔ _
    rw [mem_keys_addCurve rest _ name d, mem_keys_addPoint]
    simp only [List.map_cons, List.mem_cons]
    tauto

lemma nodup_keys_addCurve :
    ∀ (pts : List (String × ℚ)) (bd : List (String × ChartRow)) (name : String),
    (bd.map Prod.fst).Nodup → ((addCurve bd name pts).map Prod.fst).Nodup
  | [], _, _, h => h
  | pt :: rest, bd, name, h =>
    nodup_keys_addCurve rest _ name (nodup_keys_addPoint bd name pt.1 pt.2 h)

lemma rowsDated_addCurve :
    ∀ (pts : List (String × ℚ)) (bd : List (String × ChartRow)) (name : String),
    name ≠ "date" → RowsDated bd → RowsDated (addCurve bd name pts)
  | [], _, _, _, h => h
  | pt :: rest, bd, name, hname, h =>
    rowsDated_addCurve rest _ name hname (rowsDated_addPoint bd name pt.1 pt.2 hname h)

/-- The `byDate` accumulation of `chartData` (`frontend/src/App.jsx` lines
377–389): iterate the curve names in insertion order, and for each curve
fold its `{date, value}` points into the date-keyed row table. -/
def buildByDate (curves : List (String × List (String × ℚ))) :
    List (String × ChartRow) :=
  curves.foldl (fun bd c => addCurve bd c.1 c.2) []

/-- Embeds `chartData`: build `byDate`, take `Object.values` (the rows, in
key insertion order), and sort them by
`.sort((a, b) => a.date.localeCompare(b.date))`. -/
def chartData (curves : List (String × List (String × ℚ))) : List ChartRow :=
  List.insertionSort rowLe ((buildByDate curves).map Prod.snd)

lemma cell_foldl_curves :
    ∀ (curves : List (String × List (String × ℚ))) (bd : List (String × ChartRow))
      (d k : String), k ≠ "date" → (curves.map Prod.fst).Nodup →
    cell (curves.foldl (fun b c => addCurve b c.1 c.2) bd) d k =
      match getKey curves k with
      | some pts =>
        match getKey pts.reverse d with
        | some v => some (JsVal.num v)
        | none => cell bd d k
      | none => cell bd d k
  | [], _, _, _, _, _ => rfl
  | c :: rest, bd, d, k, hk, hnd => by
    rw [List.map_cons, List.nodup_cons] at hnd
    have ih := cell_foldl_curves rest (addCurve bd c.1 c.2) d k hk hnd.2
    show cell (rest.foldl _ (addCurve bd c.1 c.2)) d k = _
    rw [ih]
    by_cases hck : c.1 = k
    · have hrest : getKey rest k = none := getKey_eq_none_of_not_mem (hck ▸ hnd.1)
      rw [hrest]
      simp only [getKey, if_pos hck]
      rw [cell_addCurve c.2 bd c.1 d k hk, if_pos hck.symm]
    · have hcell : cell (addCurve bd c.1 c.2) d k = cell bd d k := by
        rw [cell_addCurve c.2 bd c.1 d k hk, if_neg (fun hh : k = c.1 => hck hh.symm)]
      simp only [getKey, if_neg hck]
      rw [hcell]

lemma mem_keys_foldl_curves :
    ∀ (curves : List (String × List (String × ℚ))) (bd : List (String × ChartRow))
      (d : String),
    d ∈ (curves.foldl (fun b c => addCurve b c.1 c.2) bd).map Prod.fst ↔
      d ∈ bd.map Prod.fst ∨ ∃ c ∈ curves, d ∈ c.2.map Prod.fst
  | [], bd, d => by simp
  | c :: rest, bd, d => by
    show d ∈ (rest.foldl _ (addCurve bd c.1 c.2)).map Prod.fst ↔ _
    rw [mem_keys_foldl_curves rest _ d, mem_keys_addCurve]
    constructor
    · rintro ((h | h) | ⟨c', hc', h⟩)
      · exact .inl h
      · exact .inr ⟨c, List.mem_cons_self c rest, h⟩
      · exact .inr ⟨c', List.mem_cons_of_mem c hc', h⟩
    · rintro (h | ⟨c', hc', h⟩)
      · exact .inl (.inl h)
      · rcases List.mem_cons.mp hc' with hc'' | hc''
        · exact .inl (.inr (hc'' ▸ h))
        · exact .inr ⟨c', hc'', h⟩

lemma nodup_keys_foldl_curves :
    ∀ (curves : List (String × List (String × ℚ))) (bd : List (String × ChartRow)),
    (bd.map Prod.fst).Nodup →
    ((curves.foldl (fun b c => addCurve b c.1 c.2) bd).map Prod.fst).Nodup
  | [], _, h => h
  | c :: rest, bd, h =>
    nodup_keys_foldl_curves rest (addCurve bd c.1 c.2) (nodup_keys_addCurve c.2 bd c.1 h)

lemma rowsDated_foldl_curves :
    ∀ (curves : List (String × List (String × ℚ))) (bd : List (String × ChartRow)),
    "date" ∉ curves.map Prod.fst → RowsDated bd →
    RowsDated (curves.foldl (fun b c => addCurve b c.1 c.2) bd)
  | [], _, _, h => h
  | c :: rest, bd, hnd, h => by
    simp only [List.map_cons, List.mem_cons] at hnd
    push_neg at hnd
    exact rowsDated_foldl_curves rest _ hnd.2
      (rowsDated_addCurve c.2 bd c.1 (fun hh => hnd.1 hh.symm) h)

/-- An equity-curve map whose single curve is named `date` — reachable in
a backtest result, since curve names are user-chosen portfolio names. -/
def dateCurve : List (String × List (String × ℚ)) :=
  [("date", [("2020-01-01", 5)])]

/-- C7 fails as stated: the row object keeps its date and the curve
values in one key space, so `byDate[date][name] = value` with
`name = 'date'` overwrites the row's date property with the numeric
value.  The date `2020-01-01` occurs in a curve of `dateCurve`, yet no
row of `chartData dateCurve` is the row for that date — the only row
carries the number `5` where the date string should be.  (With a single
row the sort invokes no comparator, so this outcome is deterministic; on
two or more such rows the JS comparator would throw a TypeError.) -/
theorem chartData_date_curve_cex :
    (∃ c ∈ dateCurve, "2020-01-01" ∈ c.2.map Prod.fst) ∧
    (∀ r ∈ chartData dateCurve, rowDate r ≠ some "2020-01-01") ∧
    chartData dateCurve = [[("date", JsVal.num 5)]] := by
  have h1 : chartData dateCurve = [[("date", JsVal.num 5)]] := by
    simp [chartData, dateCurve, buildByDate, addCurve, addPoint, newRow, jsSet, getKey,
      List.insertionSort, List.orderedInsert]
  refine ⟨⟨("date", [("2020-01-01", 5)]), by simp [dateCurve], by simp⟩, ?_, h1⟩
  intro r hr
  rw [h1, List.mem_singleton] at hr
  subst hr
  simp [rowDate, getKey]

/-- C7 (amended): for every equity-curve map with distinct curve names,
per-curve distinct dates, and no curve named `date` (a curve named `date`
overwrites the rows' date property, because the row object keeps the date
and the curve values in one key space), `chartData` has exactly one row
per distinct date occurring in any curve, the rows are sorted in strictly
ascending order of their date strings, and the row for date `d` holds
value `v` under curve name `k` iff curve `k` contains the point
`(d, v)`. -/
theorem chartData_one_row_per_date (curves : List (String × List (String × ℚ)))
    (hnames : (curves.map Prod.fst).Nodup)
    (hdates : ∀ c ∈ curves, (c.2.map Prod.fst).Nodup)
    (hnodate : "date" ∉ curves.map Prod.fst) :
    (∀ r ∈ chartData curves, ∃ d, rowDate r = some d) ∧
    ((chartData curves).map rowDate).Nodup ∧
    (∀ d : String, some d ∈ (chartData curves).map rowDate ↔
      ∃ c ∈ curves, d ∈ c.2.map Prod.fst) ∧
    List.Pairwise (fun a b : ChartRow => ∃ da db, rowDate a = some da ∧
      rowDate b = some db ∧ strLe da db = true ∧ da ≠ db) (chartData curves) ∧
    (∀ r ∈ chartData curves, ∀ d, rowDate r = some d → ∀ k v,
      getKey r k = some (JsVal.num v) ↔ ∃ pts, (k, pts) ∈ curves ∧ (d, v) ∈ pts) := by
  have hperm : (chartData curves).Perm ((buildByDate curves).map Prod.snd) :=
    List.perm_insertionSort rowLe _
  have hndBD : ((buildByDate curves).map Prod.fst).Nodup :=
    nodup_keys_foldl_curves curves [] (by simp)
  have hdated : RowsDated (buildByDate curves) :=
    rowsDated_foldl_curves curves [] hnodate (fun e he => absurd he (List.not_mem_nil e))
  have hrowsdates : ((buildByDate curves).map Prod.snd).map rowDate =
      ((buildByDate curves).map Prod.fst).map some := by
    rw [List.map_map, List.map_map]
    refine List.map_congr_left fun e he => ?_
    show rowDate e.2 = some e.1
    simp only [rowDate, hdated e he]
  have hmemdated : ∀ r ∈ chartData curves, ∃ key, (key, r) ∈ buildByDate curves ∧
      rowDate r = some key := by
    intro r hr
    have hr' : r ∈ (buildByDate curves).map Prod.snd := hperm.mem_iff.mp hr
    rcases List.mem_map.mp hr' with ⟨e, he, rfl⟩
    exact ⟨e.1, he, by simp only [rowDate, hdated e he]⟩
  have hp1 : ∀ r ∈ chartData curves, ∃ d, rowDate r = some d := by
    intro r hr
    obtain ⟨key, _, hd⟩ := hmemdated r hr
    exact ⟨key, hd⟩
  have hmapperm : ((chartData curves).map rowDate).Perm
      (((buildByDate curves).map Prod.snd).map rowDate) := hperm.map _
  have hp2 : ((chartData curves).map rowDate).Nodup := by
    refine hmapperm.nodup_iff.mpr ?_
    rw [hrowsdates]
    exact hndBD.map (Option.some_injective _)
  refine ⟨hp1, hp2, ?_, ?_, ?_⟩
  · intro d
    rw [hmapperm.mem_iff, hrowsdates]
    have h1 : some d ∈ ((buildByDate curves).map Prod.fst).map some ↔
        d ∈ (buildByDate curves).map Prod.fst := by
      constructor
      · intro h
        rcases List.mem_map.mp h with ⟨x, hx, hxd⟩
        rwa [← Option.some_inj.mp hxd]
      · intro h
        exact List.mem_map.mpr ⟨d, h, rfl⟩
    rw [h1]
    simpa using mem_keys_foldl_curves curves [] d
  · have hsorted : List.Sorted rowLe (chartData curves) :=
      List.sorted_insertionSort rowLe _
    have hneq : List.Pairwise (fun a b : ChartRow => rowDate a ≠ rowDate b)
        (chartData curves) := List.pairwise_map.mp hp2
    refine (hsorted.and hneq).imp_of_mem ?_
    intro a b ha hb hab
    obtain ⟨hle, hne⟩ := hab
    obtain ⟨da, hda⟩ := hp1 a ha
    obtain ⟨db, hdb⟩ := hp1 b hb
    refine ⟨da, db, hda, hdb, ?_, ?_⟩
    · have hle' := hle
      rw [rowLe, hda, hdb] at hle'
      simpa using hle'
    · intro hdd
      exact hne (by rw [hda, hdb, hdd])
  · intro r hr d hd k v
    obtain ⟨key, hkey, hdate⟩ := hmemdated r hr
    have hdk : d = key := Option.some_inj.mp (hd.symm.trans hdate)
    subst hdk
    by_cases hk : k = "date"
    · subst hk
      constructor
      · intro hv
        have hds := hdated (d, r) hkey
        rw [hds] at hv
        exact absurd (Option.some_inj.mp hv) (by simp)
      · rintro ⟨pts, hmem, _⟩
        exact absurd (List.mem_map.mpr ⟨("date", pts), hmem, rfl⟩) hnodate
    · have hget : getKey (buildByDate curves) d = some r :=
        (getKey_eq_some_iff _ hndBD d r).mpr hkey
      have hcell : cell (buildByDate curves) d k = getKey r k := by
        rw [cell, hget, Option.getD_some]
      rw [← hcell]
      have hfold := cell_foldl_curves curves [] d k hk hnames
      rw [show buildByDate curves = curves.foldl (fun b c => addCurve b c.1 c.2) [] from
        rfl, hfold]
      cases hg : getKey curves k with
      | none =>
        show (none : Option JsVal) = some (JsVal.num v) ↔
          ∃ pts, (k, pts) ∈ curves ∧ (d, v) ∈ pts
        constructor
        · intro hv
          exact Option.noConfusion hv
        · rintro ⟨pts, hmem, _⟩
          have h1 := (getKey_eq_some_iff curves hnames k pts).mpr hmem
          rw [hg] at h1
          exact Option.noConfusion h1
      | some pts =>
        have hmempts : (k, pts) ∈ curves := (getKey_eq_some_iff curves hnames k pts).mp hg
        have hndp : (pts.map Prod.fst).Nodup := hdates (k, pts) hmempts
        have hrevnd : (pts.reverse.map Prod.fst).Nodup := by
          rw [List.map_reverse]
          exact List.nodup_reverse.mpr hndp
        show (match getKey pts.reverse d with
              | some w => some (JsVal.num w)
              | none => cell [] d k) = some (JsVal.num v) ↔
            ∃ pts, (k, pts) ∈ curves ∧ (d, v) ∈ pts
        cases hgg : getKey pts.reverse d with
        | some w =>
          have hw : (d, w) ∈ pts :=
            List.mem_reverse.mp ((getKey_eq_some_iff pts.reverse hrevnd d w).mp hgg)
          show some (JsVal.num w) = some (JsVal.num v) ↔
            ∃ pts, (k, pts) ∈ curves ∧ (d, v) ∈ pts
          constructor
          · intro hv
            have hwv : w = v := by
              injection Option.some_inj.mp hv
            exact ⟨pts, hmempts, hwv ▸ hw⟩
          · rintro ⟨pts', hmem', hv'⟩
            have hpp : pts' = pts := by
              have h1 := (getKey_eq_some_iff curves hnames k pts').mpr hmem'
              rw [hg] at h1
              exact (Option.some_inj.mp h1).symm
            subst hpp
            have h2 : getKey pts'.reverse d = some v :=
              (getKey_eq_some_iff pts'.reverse hrevnd d v).mpr (List.mem_reverse.mpr hv')
            rw [hgg] at h2
            rw [Option.some_inj.mp h2]
        | none =>
          show (none : Option JsVal) = some (JsVal.num v) ↔
            ∃ pts, (k, pts) ∈ curves ∧ (d, v) ∈ pts
          constructor
          · intro hv
            exact Option.noConfusion hv
          · rintro ⟨pts', hmem', hv'⟩
            have hpp : pts' = pts := by
              have h1 := (getKey_eq_some_iff curves hnames k pts').mpr hmem'
              rw [hg] at h1
              exact (Option.some_inj.mp h1).symm
            subst hpp
            have h2 : getKey pts'.reverse d = some v :=
              (getKey_eq_some_iff pts'.reverse hrevnd d v).mpr (List.mem_reverse.mpr hv')
            rw [hgg] at h2
            exact Option.noConfusion h2

/-- Sample equity-curve map used to exercise `chartData_one_row_per_date`
on concrete data. -/
def sampleCurves : List (String × List (String × ℚ)) :=
  [("Portfolio 1", [("2020-01-02", 2), ("2020-01-01", 1)]),
   ("S&P 500", [("2020-01-01", 3)])]

theorem chartData_one_row_per_date_witness :
    (sampleCurves.map Prod.fst).Nodup ∧
    (∀ c ∈ sampleCurves, (c.2.map Prod.fst).Nodup) ∧
    "date" ∉ sampleCurves.map Prod.fst ∧
    ((∀ r ∈ chartData sampleCurves, ∃ d, rowDate r = some d) ∧
      ((chartData sampleCurves).map rowDate).Nodup ∧
      (∀ d : String, some d ∈ (chartData sampleCurves).map rowDate ↔
        ∃ c ∈ sampleCurves, d ∈ c.2.map Prod.fst) ∧
      List.Pairwise (fun a b : ChartRow => ∃ da db, rowDate a = some da ∧
        rowDate b = some db ∧ strLe da db = true ∧ da ≠ db) (chartData sampleCurves) ∧
      (∀ r ∈ chartData sampleCurves, ∀ d, rowDate r = some d → ∀ k v,
        getKey r k = some (JsVal.num v) ↔
          ∃ pts, (k, pts) ∈ sampleCurves ∧ (d, v) ∈ pts)) :=
  ⟨by decide, by decide, by decide,
    chartData_one_row_per_date sampleCurves (by decide) (by decide) (by decide)⟩

/-- JS `next[i] = f(next[i])` on a copied array: apply `f` at index `i`,
leave everything else in place (out-of-range indices leave the list
unchanged; the UI only invokes the editors with in-range indices). -/
def modifyAt {α : Type} (f : α → α) : List α → ℕ → List α
  | [], _ => []
  | x :: xs, 0 => f x :: xs
  | x :: xs, n + 1 => x :: modifyAt f xs n

lemma modifyAt_length {α : Type} (f : α → α) :
    ∀ (l : List α) (i : ℕ), (modifyAt f l i).length = l.length
  | [], _ => rfl
  | _ :: _, 0 => rfl
  | _ :: xs, n + 1 => congrArg Nat.succ (modifyAt_length f xs n)

lemma mem_modifyAt {α : Type} (f : α → α) :
    ∀ (l : List α) (i : ℕ) (q : α), q ∈ modifyAt f l i →
      q ∈ l ∨ ∃ p, p ∈ l ∧ q = f p
  | [], _, q, h => absurd h (List.not_mem_nil q)
  | x :: xs, 0, q, h => by
    rcases List.mem_cons.mp h with h | h
    · exact .inr ⟨x, List.mem_cons_self x xs, h⟩
    · exact .inl (List.mem_cons_of_mem x h)
  | x :: xs, n + 1, q, h => by
    rcases List.mem_cons.mp h with h | h
    · exact .inl (h ▸ List.mem_cons_self x xs)
    · rcases mem_modifyAt f xs n q h with h | ⟨p, hp, hq⟩
      · exact .inl (List.mem_cons_of_mem x h)
      · exact .inr ⟨p, List.mem_cons_of_mem x hp, hq⟩

lemma modifyAt_eq_self {α : Type} (f : α → α) :
    ∀ (l : List α) (i : ℕ), (∀ x, l.get? i = some x → f x = x) → modifyAt f l i = l
  | [], _, _ => rfl
  | x :: _, 0, h => by
    simp only [modifyAt]
    rw [h x rfl]
  | _ :: xs, n + 1, h => by
    simp only [modifyAt, List.cons.injEq, true_and]
    exact modifyAt_eq_self f xs n fun y hy => h y hy

lemma length_eraseIdx_ge {α : Type} :
    ∀ (l : List α) (i : ℕ), l.length - 1 ≤ (l.eraseIdx i).length
  | [], _ => by simp
  | _ :: xs, 0 => by simp [List.eraseIdx]
  | x :: xs, n + 1 => by
    have := length_eraseIdx_ge xs n
    simp only [List.eraseIdx, List.length_cons]
    omega

/-- The initial portfolios state (`defaultPortfolio`,
`frontend/src/App.jsx` line 30). -/
def defaultPortfolio : Portfolio :=
  ⟨"Portfolio 1", ["VTI", "BND"], [some (6 / 10), some (4 / 10)]⟩

/-- Embeds `addPortfolio` (lines 144–146): append a fresh single-ticker
portfolio named after the new count. -/
def addPortfolio (ps : List Portfolio) : List Portfolio :=
  ps ++ [⟨"Portfolio " ++ toString (ps.length + 1), ["VTI"], [some 1]⟩]

/-- Embeds `removePortfolio` (lines 148–151): a no-op when at most one
portfolio remains, otherwise drop the portfolio at index `i`
(`filter((_, j) => j !== i)`). -/
def removePortfolio (ps : List Portfolio) (i : ℕ) : List Portfolio :=
  if ps.length ≤ 1 then ps else ps.eraseIdx i

/-- Embeds `addTicker` (lines 153–163): append an empty ticker slot to
portfolio `i` and reset its weights to the uniform vector. -/
def addTicker (ps : List Portfolio) (i : ℕ) : List Portfolio :=
  modifyAt (fun p =>
    let tickers := p.tickers ++ [""]
    let n := tickers.length
    { p with tickers := tickers, weights := List.replicate n (some ((1 : ℚ) / n)) }) ps i

/-- Embeds `removeTicker` (lines 165–176): a no-op when portfolio `i` has
at most one ticker, otherwise drop ticker and weight at index `j` and
renormalize the remaining weights. -/
def removeTicker (ps : List Portfolio) (i j : ℕ) : List Portfolio :=
  modifyAt (fun p =>
    if p.tickers.length ≤ 1 then p
    else
      let tickers := p.tickers.eraseIdx j
      let weights := p.weights.eraseIdx j
      { p with tickers := tickers,
               weights := (normalizeWeights weights tickers.length).map some }) ps i

/-- One user action on the portfolios editor. -/
inductive EditOp where
  | addPortfolio
  | removePortfolio (i : ℕ)
  | addTicker (i : ℕ)
  | removeTicker (i j : ℕ)

def applyEdit (ps : List Portfolio) : EditOp → List Portfolio
  | .addPortfolio => addPortfolio ps
  | .removePortfolio i => removePortfolio ps i
  | .addTicker i => addTicker ps i
  | .removeTicker i j => removeTicker ps i j

/-- The portfolios state reached from the default state by a sequence of
editing operations. -/
def runEdits (ops : List EditOp) : List Portfolio :=
  ops.foldl applyEdit [defaultPortfolio]

lemma applyEdit_invariant (ps : List Portfolio) (op : EditOp)
    (h : ps ≠ [] ∧ ∀ p ∈ ps, p.tickers ≠ []) :
    applyEdit ps op ≠ [] ∧ ∀ p ∈ applyEdit ps op, p.tickers ≠ [] := by
  obtain ⟨hne, htick⟩ := h
  cases op with
  | addPortfolio =>
    constructor
    · simp [applyEdit, addPortfolio]
    · intro p hp
      rcases List.mem_append.mp hp with hp | hp
      · exact htick p hp
      · rw [List.mem_singleton.mp hp]
        simp
  | removePortfolio i =>
    simp only [applyEdit, removePortfolio]
    by_cases hlen : ps.length ≤ 1
    · rw [if_pos hlen]
      exact ⟨hne, htick⟩
    · rw [if_neg hlen]
      constructor
      · have h2 : 2 ≤ ps.length := by omega
        have := length_eraseIdx_ge ps i
        intro hnil
        rw [hnil] at this
        simp at this
        omega
      · intro p hp
        exact htick p ((ps.eraseIdx_sublist i).subset hp)
  | addTicker i =>
    simp only [applyEdit, addTicker]
    constructor
    · intro hnil
      have hlen := congrArg List.length hnil
      rw [modifyAt_length] at hlen
      exact hne (List.eq_nil_of_length_eq_zero hlen)
    · intro p hp
      rcases mem_modifyAt _ ps i p hp with hp | ⟨q, hq, rfl⟩
      · exact htick p hp
      · simp
  | removeTicker i j =>
    simp only [applyEdit, removeTicker]
    constructor
    · intro hnil
      have hlen := congrArg List.length hnil
      rw [modifyAt_length] at hlen
      exact hne (List.eq_nil_of_length_eq_zero hlen)
    · intro p hp
      rcases mem_modifyAt _ ps i p hp with hp | ⟨q, hq, rfl⟩
      · exact htick p hp
      · by_cases hq1 : q.tickers.length ≤ 1
        · simp only [if_pos hq1]
          exact htick q hq
        · simp only [if_neg hq1]
          intro hnil
          have hlen := length_eraseIdx_ge q.tickers j
          have : (q.tickers.eraseIdx j).length = 0 := by
            simpa using congrArg List.length hnil
          omega

lemma foldl_applyEdit_invariant :
    ∀ (ops : List EditOp) (ps : List Portfolio),
    (ps ≠ [] ∧ ∀ p ∈ ps, p.tickers ≠ []) →
    (ops.foldl applyEdit ps ≠ [] ∧ ∀ p ∈ ops.foldl applyEdit ps, p.tickers ≠ [])
  | [], _, h => h
  | op :: rest, ps, h =>
    foldl_applyEdit_invariant rest (applyEdit ps op) (applyEdit_invariant ps op h)

/-- C10: from the default state, any finite sequence of `addPortfolio`,
`removePortfolio`, `addTicker` and `removeTicker` operations leaves the
portfolios list non-empty and every portfolio's tickers list non-empty;
moreover `removePortfolio` is a no-op when at most one portfolio remains,
and `removeTicker` is a no-op when the targeted portfolio has at most one
ticker. -/
theorem portfolio_editing_invariant (ops : List EditOp) :
    (runEdits ops ≠ [] ∧ ∀ p ∈ runEdits ops, p.tickers ≠ []) ∧
    (∀ ps i, ps.length ≤ 1 → removePortfolio ps i = ps) ∧
    (∀ ps i j, (∀ p, ps.get? i = some p → p.tickers.length ≤ 1) →
      removeTicker ps i j = ps) := by
  refine ⟨?_, ?_, ?_⟩
  · exact foldl_applyEdit_invariant ops [defaultPortfolio] (by decide)
  · intro ps i h
    rw [removePortfolio, if_pos h]
  · intro ps i j h
    exact modifyAt_eq_self _ ps i fun p hp => by rw [if_pos (h p hp)]

/-- A single-ticker portfolio used to exercise the `removeTicker` no-op. -/
def soloPortfolio : Portfolio := ⟨"P", ["VTI"], [some 1]⟩

theorem portfolio_editing_invariant_witness :
    (runEdits [.addPortfolio, .removeTicker 0 0, .removePortfolio 1] ≠ [] ∧
      ∀ p ∈ runEdits [.addPortfolio, .removeTicker 0 0, .removePortfolio 1],
        p.tickers ≠ []) ∧
    ([defaultPortfolio].length ≤ 1 ∧
      removePortfolio [defaultPortfolio] 0 = [defaultPortfolio]) ∧
    ((∀ p, [soloPortfolio].get? 0 = some p → p.tickers.length ≤ 1) ∧
      removeTicker [soloPortfolio] 0 0 = [soloPortfolio]) :=
  have hsolo : ∀ p, [soloPortfolio].get? 0 = some p → p.tickers.length ≤ 1 := by
    intro p hp
    rw [← Option.some_inj.mp hp]
    decide
  ⟨(portfolio_editing_invariant [.addPortfolio, .removeTicker 0 0, .removePortfolio 1]).1,
    ⟨by decide,
      (portfolio_editing_invariant []).2.1 [defaultPortfolio] 0 (by decide)⟩,
    ⟨hsolo, (portfolio_editing_invariant []).2.2 [soloPortfolio] 0 0 hsolo⟩⟩
